import Mathlib

/-!
# FinSight rolling metric engine: a shallow embedding

This file embeds `src/app/services/analytics.py` (the rolling time-series
metric engine `compute_metrics_for_prices` and its helper
`_ensure_datetime_and_sort`) and proves or refutes the specification's claims
about it.

Modelling conventions:

* IEEE doubles are idealized as exact values.  Every number produced by the
  pipeline is either `NaN`, a signed infinity, a rational, the square root of
  a rational (rolling standard deviations), or a rational divided by such a
  square root (sharpe ratios); the inductive type `Cell` represents these
  symbolically and exactly.
* The `pandas` datetime conversion `pd.to_datetime` is idealized as the
  identity on integer dates (dates are modelled as `ℤ`, ordered as calendar
  dates are).
* `rolling(window=w, min_periods=w, closed='left')` at row `i` aggregates the
  non-`NaN` values among positions `[i-w, i-1]` and yields `NaN` unless at
  least `w` such observations exist; `std` is the `ddof = 1` sample standard
  deviation; `dropna` removes rows whose listed cells are `NaN` (infinities
  are *not* removed).  An infinite cell can enter a return window only when a
  prior close is `0`; in that case the window's standard deviation is `NaN`
  under both pandas semantics and this model, so the affected row is dropped
  either way and the emitted rows agree.
-/

namespace FinSight

/-- One numeric cell of a metric table, modelling an IEEE double as an exact
symbolic value: `nan`; a signed infinity (`inf true` is `+∞`); a rational;
`sqrtv q`, the square root of the nonnegative rational `q` (arising as a
rolling standard deviation whose sample variance is `q`); or `divSqrt p q`,
the rational `p` divided by the square root of the positive rational `q`
(arising as a sharpe ratio). -/
inductive Cell where
  | nan : Cell
  | inf : Bool → Cell
  | num : ℚ → Cell
  | sqrtv : ℚ → Cell
  | divSqrt : ℚ → ℚ → Cell
deriving DecidableEq, Repr

/-- Tests whether the cell is the float `NaN`; `dropna` removes precisely these. -/
def Cell.isNaN : Cell → Bool
  | .nan => true
  | _ => false

/-- Tests whether the cell holds a finite value (neither `NaN` nor `±∞`). -/
def Cell.isFinite : Cell → Bool
  | .nan => false
  | .inf _ => false
  | _ => true

/-- Is the real value represented by the cell equal to `0`?  (`√q = 0 ↔ q = 0`
and, for `q > 0`, `p/√q = 0 ↔ p = 0`.) -/
def Cell.isZero : Cell → Bool
  | .num q => q == 0
  | .sqrtv q => q == 0
  | .divSqrt p _ => p == 0
  | _ => false

/-- The rational payload of a finite rational cell, `none` otherwise.  Pandas
rolling aggregations skip `NaN` observations; this projection collects the
usable observations of a window. -/
def Cell.toNum? : Cell → Option ℚ
  | .num q => some q
  | _ => none

/-- Float division as it occurs in `sharpeXX = meanXX / volXX`, where the
numerator is a rolling mean (`NaN` or a rational) and the denominator a
rolling standard deviation (`NaN` or `√v`): `NaN` propagates; division by
`√0 = 0` yields `NaN` for a zero numerator and a signed infinity otherwise;
otherwise the exact value `p / √v`.  (Other operand shapes do not occur in
the pipeline; they default to `NaN`.) -/
def Cell.fdiv : Cell → Cell → Cell
  | .nan, _ => .nan
  | _, .nan => .nan
  | .num p, .sqrtv v =>
      if v = 0 then (if p = 0 then .nan else .inf (decide (0 < p))) else .divSqrt p v
  | _, _ => .nan

/-- Arithmetic mean of a list of rationals (division by zero for the empty
list never occurs: every use is guarded by a window-length check). -/
def listMean (l : List ℚ) : ℚ := l.sum / l.length

/-- Sample variance with `ddof = 1`, as used by pandas `rolling(...).std()`
(whose value is the square root of this). -/
def sampleVar (l : List ℚ) : ℚ :=
  (l.map (fun x => (x - listMean l) ^ 2)).sum / ((l.length : ℚ) - 1)

/-- One row of the input DataFrame: a date (an integer, idealizing
`pd.Timestamp` after `pd.to_datetime`), a close price, and the values of any
additional columns (`open`, `high`, ... — carried but never read by the
engine). -/
structure PRow where
  date : ℤ
  close : ℚ
  extra : List ℚ
deriving DecidableEq, Repr

/-- The input DataFrame.  The two flags record whether the required columns
are present (`'date' in df.columns`, `'close' in df.columns`); `rows` holds
the per-index data read through those columns. -/
structure PFrame where
  hasDate : Bool
  hasClose : Bool
  rows : List PRow
deriving DecidableEq, Repr

/-- The error raised by `compute_metrics_for_prices`:
`ValueError(f"input DataFrame must contain column '{c}'")`, the spec's
`InvalidInput`, tagged with the missing column's name. -/
inductive AnalyticsError where
  | invalidInput (col : String)
deriving DecidableEq, Repr

/-- Embeds `df.sort_values(by='date').reset_index(drop=True)`: the rows
rearranged into ascending date order (realized as an insertion sort; on the
pairwise-distinct dates of a well-formed frame every sort produces the same
list, so the choice of algorithm is immaterial). -/
def sortByDate (l : List PRow) : List PRow :=
  l.insertionSort (fun a b => a.date ≤ b.date)

/-- Embeds `_ensure_datetime_and_sort`: a copy of the frame with the date column
converted to timestamps (idealized as the identity on our integer dates) and
the rows sorted ascending by date. -/
def ensure_datetime_and_sort (df : PFrame) : PFrame :=
  { df with rows := sortByDate df.rows }

/-- Embeds `df['close'].pct_change()` at position `i`: `NaN` at position `0`, else
`close[i]/close[i-1] - 1`.  When `close[i-1] = 0` the float division yields a
signed infinity (or `NaN` for `0/0`), which `- 1` leaves unchanged. -/
def retCell (cs : List ℚ) (i : ℕ) : Cell :=
  match i with
  | 0 => .nan
  | j + 1 =>
    match (cs[j]?), (cs[j + 1]?) with
    | some p, some q =>
        if p = 0 then (if q = 0 then .nan else .inf (decide (0 < q))) else .num (q / p - 1)
    | _, _ => .nan

/-- The close column as a cell series. -/
def closeCell (cs : List ℚ) (i : ℕ) : Cell :=
  match (cs[i]?) with
  | some q => .num q
  | none => .nan

/-- The index window of `rolling(window=w, closed='left')` at row `i`:
positions `[i-w, i-1]`, clipped at `0` — the trailing window that excludes
the current row. -/
def windowIdx (w i : ℕ) : List ℕ := List.range' (i - w) (min w i)

/-- The usable (non-`NaN`) observations of the trailing `w`-window of a cell
series at row `i`; pandas rolling aggregations are computed over these. -/
def windowObs (s : ℕ → Cell) (w i : ℕ) : List ℚ :=
  (windowIdx w i).filterMap (fun j => (s j).toNum?)

/-- Embeds `series.rolling(window=w, min_periods=w, closed='left').std()` at row
`i`: `NaN` unless the trailing window holds `w` usable observations, else the
sample standard deviation (represented as `sqrtv` of the sample variance). -/
def rollingStd (s : ℕ → Cell) (w i : ℕ) : Cell :=
  let obs := windowObs s w i
  if w ≤ obs.length then .sqrtv (sampleVar obs) else .nan

/-- Embeds `series.rolling(window=w, min_periods=w, closed='left').mean()` at row
`i`: `NaN` unless the trailing window holds `w` usable observations, else
their arithmetic mean. -/
def rollingMean (s : ℕ → Cell) (w i : ℕ) : Cell :=
  let obs := windowObs s w i
  if w ≤ obs.length then .num (listMean obs) else .nan

/-- Column `vol20` at row `i` over the sorted close column `cs`. -/
def vol20At (cs : List ℚ) (i : ℕ) : Cell := rollingStd (retCell cs) 20 i

/-- Column `vol60` at row `i`. -/
def vol60At (cs : List ℚ) (i : ℕ) : Cell := rollingStd (retCell cs) 60 i

/-- Column `sma20` at row `i`: rolling mean of the close column. -/
def sma20At (cs : List ℚ) (i : ℕ) : Cell := rollingMean (closeCell cs) 20 i

/-- Column `sma50` at row `i`. -/
def sma50At (cs : List ℚ) (i : ℕ) : Cell := rollingMean (closeCell cs) 50 i

/-- Series `mean20` at row `i`: rolling mean of the return column. -/
def mean20At (cs : List ℚ) (i : ℕ) : Cell := rollingMean (retCell cs) 20 i

/-- Series `mean60` at row `i`. -/
def mean60At (cs : List ℚ) (i : ℕ) : Cell := rollingMean (retCell cs) 60 i

/-- Column `sharpe20 = mean20 / vol20` at row `i`. -/
def sharpe20At (cs : List ℚ) (i : ℕ) : Cell := (mean20At cs i).fdiv (vol20At cs i)

/-- Column `sharpe60 = mean60 / vol60` at row `i`. -/
def sharpe60At (cs : List ℚ) (i : ℕ) : Cell := (mean60At cs i).fdiv (vol60At cs i)

/-- One row of the result DataFrame
`['date', 'return', 'vol20', 'vol60', 'sma20', 'sma50', 'sharpe20',
'sharpe60']`.  The `return` column is the field `ret` (`return` is a reserved
word). -/
structure MetricRow where
  date : ℤ
  ret : Cell
  vol20 : Cell
  vol60 : Cell
  sma20 : Cell
  sma50 : Cell
  sharpe20 : Cell
  sharpe60 : Cell
deriving DecidableEq, Repr

instance : Inhabited MetricRow := ⟨⟨0, .nan, .nan, .nan, .nan, .nan, .nan, .nan⟩⟩

/-- The candidate result row at position `i` of the sorted frame with date
column `dates` and close column `cs`. -/
def metricRowAt (dates : List ℤ) (cs : List ℚ) (i : ℕ) : MetricRow :=
  { date := dates.getD i 0
    ret := retCell cs i
    vol20 := vol20At cs i
    vol60 := vol60At cs i
    sma20 := sma20At cs i
    sma50 := sma50At cs i
    sharpe20 := sharpe20At cs i
    sharpe60 := sharpe60At cs i }

/-- The `dropna(subset=['vol20', 'vol60', 'sma20', 'sma50', 'sharpe20',
'sharpe60'])` test: the row at position `i` survives iff none of the six
listed cells is `NaN` (the `return` cell is *not* consulted; infinities are
kept). -/
def rowComplete (cs : List ℚ) (i : ℕ) : Bool :=
  !(vol20At cs i).isNaN && !(vol60At cs i).isNaN &&
  !(sma20At cs i).isNaN && !(sma50At cs i).isNaN &&
  !(sharpe20At cs i).isNaN && !(sharpe60At cs i).isNaN

/-- Assembly and filtering: build the candidate row at every position of the
sorted frame, keep the complete ones in order. -/
def assembleRows (dates : List ℤ) (cs : List ℚ) : List MetricRow :=
  ((List.range cs.length).filter (rowComplete cs)).map (metricRowAt dates cs)

/-- The date column of the sorted frame. -/
def datesOf (df : PFrame) : List ℤ := (sortByDate df.rows).map PRow.date

/-- The close column of the sorted frame. -/
def closesOf (df : PFrame) : List ℚ := (sortByDate df.rows).map PRow.close

/-- Embeds `compute_metrics_for_prices`: check the required columns (`ValueError`,
i.e. `InvalidInput`, naming the first missing one), sort by date, derive the
return column and the six rolling aggregates, assemble rows and drop the
incomplete ones. -/
def compute_metrics_for_prices (df : PFrame) : Except AnalyticsError (List MetricRow) :=
  if !df.hasDate then .error (.invalidInput "date")
  else if !df.hasClose then .error (.invalidInput "close")
  else .ok (assembleRows (datesOf df) (closesOf df))

/-- The emitted rows of a successful run (`[]` on error; used to state
row-level properties). -/
def outputOf (df : PFrame) : List MetricRow :=
  (compute_metrics_for_prices df).toOption.getD []

/-- A well-formed input frame: both required columns present, pairwise
distinct dates, strictly positive closes. -/
def Wellformed (df : PFrame) : Prop :=
  df.hasDate = true ∧ df.hasClose = true ∧
  (df.rows.map PRow.date).Nodup ∧ ∀ r ∈ df.rows, 0 < r.close

instance (df : PFrame) : Decidable (Wellformed df) := by
  unfold Wellformed; infer_instance

/-- A row with its extra columns discarded: the data the engine actually
reads. -/
def stripRow (r : PRow) : PRow := ⟨r.date, r.close, []⟩

/-- Geometric test series: `n` daily observations, dates `0, …, n-1`, closes
`2^i` (so every return equals `1`). -/
def geoFrame (n : ℕ) : PFrame :=
  ⟨true, true, (List.range n).map (fun (i : ℕ) => ⟨(i : ℤ), (2 : ℚ) ^ i, []⟩)⟩

/-- Geometric series with the close of the last observation replaced by `q`. -/
def geoPert (n : ℕ) (q : ℚ) : PFrame :=
  ⟨true, true, (List.range n).map
    (fun (i : ℕ) => ⟨(i : ℤ), if i = n - 1 then q else (2 : ℚ) ^ i, []⟩)⟩

/-- The single metric row emitted for `geoFrame 62` (all sixty-one returns
equal `1`, so the volatilities are `√0` and the sharpe cells `1/0 = +∞`). -/
def geoRow62 : MetricRow :=
  { date := 61, ret := .num 1, vol20 := .sqrtv 0, vol60 := .sqrtv 0,
    sma20 := .num 115292040509521920, sma50 := .num (1152921504606845952 / 25),
    sharpe20 := .inf true, sharpe60 := .inf true }

/-- Constant-price test series: `n` daily observations at close `100`. -/
def constFrame (n : ℕ) : PFrame :=
  ⟨true, true, (List.range n).map (fun (i : ℕ) => ⟨(i : ℤ), (100 : ℚ), []⟩)⟩

/-- The synthetic series of the spec's testable property 5 and of the unit
test `test_compute_metrics_for_synthetic_series`: `close[i] = 100 + 0.5·i`
over `i = 0 .. n-1` (the test uses `n = 130`). -/
def linFrame (n : ℕ) : PFrame :=
  ⟨true, true, (List.range n).map (fun (i : ℕ) => ⟨(i : ℤ), 100 + (i : ℚ) / 2, []⟩)⟩

/-- A small well-formed three-observation frame, rows already in date order. -/
def wfA : PFrame := ⟨true, true, [⟨1, 10, []⟩, ⟨2, 11, []⟩, ⟨3, 12, []⟩]⟩

/-- The same three observations as `wfA`, supplied in a different order. -/
def wfB : PFrame := ⟨true, true, [⟨3, 12, []⟩, ⟨1, 10, []⟩, ⟨2, 11, []⟩]⟩

/-- A two-observation frame carrying an extra column (say, `volume`). -/
def exFrameA : PFrame := ⟨true, true, [⟨1, 10, [5]⟩, ⟨2, 11, [7]⟩]⟩

/-- Same dates and closes as `exFrameA`, different extra column values. -/
def exFrameB : PFrame := ⟨true, true, [⟨1, 10, [8, 9]⟩, ⟨2, 11, []⟩]⟩

/-! ## A small heap model for the frame/aliasing claim

`compute_metrics_for_prices` is claimed to leave the caller's DataFrame
untouched: `_ensure_datetime_and_sort` begins with `df = df.copy()`, and every
later write targets the callee's local objects.  We model the Python heap
explicitly — objects addressed by index, assignment statements as heap
updates — and prove that the caller's cell is preserved. -/

/-- A DataFrame object on the Python heap: the base frame's columns plus the
`return` column once `df['return'] = ...` has executed. -/
structure DFObj where
  frame : PFrame
  retCol : Option (List Cell)
deriving DecidableEq, Repr

instance : Inhabited DFObj := ⟨⟨⟨false, false, []⟩, none⟩⟩

/-- A Python heap: DataFrame objects addressed by their index. -/
abbrev Heap := List DFObj

/-- Statement `df[date_col] = pd.to_datetime(df[date_col])`, an in-place
column write (idealized as the identity on our integer dates). -/
def toDatetimeObj (o : DFObj) : DFObj := o

/-- Statement `df.sort_values(by=date_col).reset_index(drop=True)`: builds a
new object holding the rows in ascending date order. -/
def sortObj (o : DFObj) : DFObj :=
  { o with frame := { o.frame with rows := sortByDate o.frame.rows } }

/-- The value written by `df['return'] = df['close'].pct_change()`. -/
def returnColumn (f : PFrame) : List Cell :=
  (List.range f.rows.length).map (retCell (f.rows.map PRow.close))

/-- Statement `df['return'] = df['close'].pct_change()`, an in-place column
write on the callee's local object. -/
def addReturnCol (o : DFObj) : DFObj :=
  { o with retCol := some (returnColumn o.frame) }

/-- One invocation of the engine body on the heap (success path, after the
column checks, which read but never write).  `a` is the caller's DataFrame
address; the result is the heap after the call and the address of the
callee's final local `df`.  `df.copy()` and `sort_values` allocate fresh
objects; the two column assignments mutate only the callee's current local
object. -/
def engineRun (h : Heap) (a : ℕ) : Heap × ℕ :=
  let a1 := h.length
  let h1 := h ++ [h.getD a default]
  let h2 := h1.set a1 (toDatetimeObj (h1.getD a1 default))
  let a2 := h2.length
  let h3 := h2 ++ [sortObj (h2.getD a1 default)]
  let h4 := h3.set a2 (addReturnCol (h3.getD a2 default))
  (h4, a2)

/-! ## Generic list lemmas -/

theorem length_filterMap_of_isSome {α β : Type} {f : α → Option β} {l : List α}
    (h : ∀ a ∈ l, (f a).isSome = true) : (l.filterMap f).length = l.length := by
  induction l with
  | nil => rfl
  | cons a t ih =>
    have ha := h a (List.mem_cons_self a t)
    obtain ⟨b, hb⟩ := Option.isSome_iff_exists.mp ha
    rw [List.filterMap_cons, hb, List.length_cons,
      ih (fun x hx => h x (List.mem_cons_of_mem a hx)), List.length_cons]

theorem mem_filterMap_of_mem {α β : Type} {f : α → Option β} {l₁ l₂ : List α}
    (hsub : ∀ a ∈ l₁, a ∈ l₂) {b : β} (hb : b ∈ l₁.filterMap f) : b ∈ l₂.filterMap f := by
  rw [List.mem_filterMap] at hb ⊢
  obtain ⟨a, ha, hfa⟩ := hb
  exact ⟨a, hsub a ha, hfa⟩

theorem filterMap_congr_mem {α β : Type} {f g : α → Option β} {l : List α}
    (h : ∀ a ∈ l, f a = g a) : l.filterMap f = l.filterMap g := by
  induction l with
  | nil => rfl
  | cons a t ih =>
    rw [List.filterMap_cons, List.filterMap_cons, h a (List.mem_cons_self a t),
      ih (fun x hx => h x (List.mem_cons_of_mem a hx))]

/-! ## Statistics lemmas -/

theorem listMean_of_all_zero {l : List ℚ} (h : ∀ x ∈ l, x = 0) : listMean l = 0 := by
  unfold listMean
  rw [List.sum_eq_zero h, zero_div]

theorem sampleVar_of_all_zero {l : List ℚ} (h : ∀ x ∈ l, x = 0) : sampleVar l = 0 := by
  unfold sampleVar
  rw [List.sum_eq_zero, zero_div]
  intro y hy
  rw [List.mem_map] at hy
  obtain ⟨x, hx, rfl⟩ := hy
  rw [h x hx, listMean_of_all_zero h]
  ring

theorem all_zero_of_sampleVar_eq_zero {l : List ℚ} (hlen : 2 ≤ l.length)
    (hv : sampleVar l = 0) (hm : listMean l = 0) : ∀ x ∈ l, x = 0 := by
  intro x hx
  have hd : ((l.length : ℚ) - 1) ≠ 0 := by
    have h2 : (2 : ℚ) ≤ (l.length : ℚ) := by exact_mod_cast hlen
    linarith
  unfold sampleVar at hv
  rcases (div_eq_zero_iff.mp hv) with hv | hv
  · have hsq : (x - listMean l) ^ 2 = 0 := by
      refine List.all_zero_of_le_zero_le_of_sum_eq_zero ?_ hv ?_
      · intro y hy
        rw [List.mem_map] at hy
        obtain ⟨z, _, rfl⟩ := hy
        positivity
      · exact List.mem_map_of_mem _ hx
    have := (pow_eq_zero_iff (two_ne_zero)).mp hsq
    have := sub_eq_zero.mp this
    rw [this, hm]
  · exact absurd hv hd

theorem listMean_pos {l : List ℚ} (h0 : l ≠ []) (h : ∀ x ∈ l, 0 < x) : 0 < listMean l := by
  unfold listMean
  apply div_pos (List.sum_pos l h h0)
  exact_mod_cast List.length_pos.mpr h0

/-! ## Window lemmas -/

theorem length_windowIdx (w i : ℕ) : (windowIdx w i).length = min w i :=
  List.length_range' _ _ _

theorem mem_windowIdx {w i j : ℕ} : j ∈ windowIdx w i ↔ i - w ≤ j ∧ j < i := by
  unfold windowIdx
  rw [List.mem_range'_1]
  omega

theorem retCell_isSome {cs : List ℚ} (hpos : ∀ x ∈ cs, 0 < x) {j : ℕ}
    (h1 : 1 ≤ j) (hj : j < cs.length) : ((retCell cs j).toNum?).isSome = true := by
  obtain ⟨k, rfl⟩ : ∃ k, j = k + 1 := ⟨j - 1, by omega⟩
  have hk : k < cs.length := by omega
  simp only [retCell]
  rw [List.getElem?_eq_getElem hk, List.getElem?_eq_getElem hj]
  have hp : cs[k] ≠ 0 := ne_of_gt (hpos _ (List.getElem_mem hk))
  simp [hp, Cell.toNum?]

theorem windowObs_ret_length {cs : List ℚ} (hpos : ∀ x ∈ cs, 0 < x) {w i : ℕ}
    (hi : i ≤ cs.length) : (windowObs (retCell cs) w i).length = min (i - 1) w := by
  by_cases h : w + 1 ≤ i
  · unfold windowObs
    rw [length_filterMap_of_isSome, length_windowIdx]
    · omega
    · intro j hj
      rw [mem_windowIdx] at hj
      exact retCell_isSome hpos (by omega) (by omega)
  · have hwin : windowIdx w i = List.range' 0 i := by
      unfold windowIdx
      congr 1 <;> omega
    match i with
    | 0 => simp [windowObs, hwin]
    | k + 1 =>
      unfold windowObs
      rw [hwin, List.range'_succ, List.filterMap_cons]
      have h0 : (retCell cs 0).toNum? = none := rfl
      rw [h0, length_filterMap_of_isSome]
      · rw [List.length_range']
        omega
      · intro j hj
        rw [List.mem_range'_1] at hj
        exact retCell_isSome hpos (by omega) (by omega)

theorem windowObs_close_length {cs : List ℚ} {w i : ℕ} (hi : i ≤ cs.length) :
    (windowObs (closeCell cs) w i).length = min w i := by
  unfold windowObs
  rw [length_filterMap_of_isSome, length_windowIdx]
  intro j hj
  rw [mem_windowIdx] at hj
  have hjlen : j < cs.length := by omega
  unfold closeCell
  rw [List.getElem?_eq_getElem hjlen]
  rfl

theorem rollingStd_eq_of_le {s : ℕ → Cell} {w i : ℕ} (h : w ≤ (windowObs s w i).length) :
    rollingStd s w i = .sqrtv (sampleVar (windowObs s w i)) := by
  unfold rollingStd
  simp [h]

theorem rollingStd_eq_nan {s : ℕ → Cell} {w i : ℕ} (h : (windowObs s w i).length < w) :
    rollingStd s w i = .nan := by
  unfold rollingStd
  simp [Nat.not_le.mpr h]

theorem rollingMean_eq_of_le {s : ℕ → Cell} {w i : ℕ} (h : w ≤ (windowObs s w i).length) :
    rollingMean s w i = .num (listMean (windowObs s w i)) := by
  unfold rollingMean
  simp [h]

theorem rollingMean_eq_nan {s : ℕ → Cell} {w i : ℕ} (h : (windowObs s w i).length < w) :
    rollingMean s w i = .nan := by
  unfold rollingMean
  simp [Nat.not_le.mpr h]

/-! ## Per-cell NaN characterizations (positive closes, `i` within the frame) -/

theorem sharpe_isNaN_iff {cs : List ℚ} {w i : ℕ} (hw : 2 ≤ w)
    (h : w ≤ (windowObs (retCell cs) w i).length) :
    ((Cell.fdiv (rollingMean (retCell cs) w i) (rollingStd (retCell cs) w i)).isNaN = true)
      ↔ ∀ x ∈ windowObs (retCell cs) w i, x = 0 := by
  rw [rollingMean_eq_of_le h, rollingStd_eq_of_le h]
  unfold Cell.fdiv
  constructor
  · intro hnan
    by_cases hv : sampleVar (windowObs (retCell cs) w i) = 0
    · by_cases hm : listMean (windowObs (retCell cs) w i) = 0
      · exact all_zero_of_sampleVar_eq_zero (by omega) hv hm
      · simp [hv, hm, Cell.isNaN] at hnan
    · simp [hv, Cell.isNaN] at hnan
  · intro hall
    simp [sampleVar_of_all_zero hall, listMean_of_all_zero hall, Cell.isNaN]

theorem vol20At_isNaN_iff {cs : List ℚ} (hpos : ∀ x ∈ cs, 0 < x) {i : ℕ}
    (hi : i ≤ cs.length) : ((vol20At cs i).isNaN = false) ↔ 21 ≤ i := by
  unfold vol20At
  by_cases h : 21 ≤ i
  · rw [rollingStd_eq_of_le (by rw [windowObs_ret_length hpos hi]; omega)]
    simpa [Cell.isNaN] using h
  · rw [rollingStd_eq_nan (by rw [windowObs_ret_length hpos hi]; omega)]
    simpa [Cell.isNaN] using h

theorem vol60At_isNaN_iff {cs : List ℚ} (hpos : ∀ x ∈ cs, 0 < x) {i : ℕ}
    (hi : i ≤ cs.length) : ((vol60At cs i).isNaN = false) ↔ 61 ≤ i := by
  unfold vol60At
  by_cases h : 61 ≤ i
  · rw [rollingStd_eq_of_le (by rw [windowObs_ret_length hpos hi]; omega)]
    simpa [Cell.isNaN] using h
  · rw [rollingStd_eq_nan (by rw [windowObs_ret_length hpos hi]; omega)]
    simpa [Cell.isNaN] using h

theorem sma20At_isNaN_iff {cs : List ℚ} {i : ℕ} (hi : i ≤ cs.length) :
    ((sma20At cs i).isNaN = false) ↔ 20 ≤ i := by
  unfold sma20At
  by_cases h : 20 ≤ i
  · rw [rollingMean_eq_of_le (by rw [windowObs_close_length hi]; omega)]
    simpa [Cell.isNaN] using h
  · rw [rollingMean_eq_nan (by rw [windowObs_close_length hi]; omega)]
    simpa [Cell.isNaN] using h

theorem sma50At_isNaN_iff {cs : List ℚ} {i : ℕ} (hi : i ≤ cs.length) :
    ((sma50At cs i).isNaN = false) ↔ 50 ≤ i := by
  unfold sma50At
  by_cases h : 50 ≤ i
  · rw [rollingMean_eq_of_le (by rw [windowObs_close_length hi]; omega)]
    simpa [Cell.isNaN] using h
  · rw [rollingMean_eq_nan (by rw [windowObs_close_length hi]; omega)]
    simpa [Cell.isNaN] using h

theorem windowObs_mono {cs : List ℚ} {i : ℕ} {x : ℚ}
    (hx : x ∈ windowObs (retCell cs) 20 i) : x ∈ windowObs (retCell cs) 60 i := by
  unfold windowObs at hx ⊢
  refine mem_filterMap_of_mem ?_ hx
  intro j hj
  rw [mem_windowIdx] at hj ⊢
  omega

/-- The `dropna` row test, characterized: a row survives iff it is at
position `61` or later of the sorted frame and the twenty returns strictly
before it are not all zero (otherwise `sharpe20` — or, a fortiori with all
sixty, `sharpe60` — is `0/0 = NaN`). -/
theorem rowComplete_iff {cs : List ℚ} (hpos : ∀ x ∈ cs, 0 < x) {i : ℕ}
    (hi : i ≤ cs.length) :
    rowComplete cs i = true ↔
      (61 ≤ i ∧ ∃ x ∈ windowObs (retCell cs) 20 i, x ≠ 0) := by
  unfold rowComplete
  simp only [Bool.and_eq_true, Bool.not_eq_true']
  constructor
  · rintro ⟨⟨⟨⟨⟨-, h60⟩, -⟩, -⟩, hs20⟩, -⟩
    have h61 : 61 ≤ i := (vol60At_isNaN_iff hpos hi).mp h60
    refine ⟨h61, ?_⟩
    by_contra hall
    push_neg at hall
    have h20 : 20 ≤ (windowObs (retCell cs) 20 i).length := by
      rw [windowObs_ret_length hpos hi]; omega
    have hnan := (sharpe_isNaN_iff (by omega) h20).mpr hall
    rw [sharpe20At, mean20At, vol20At] at hs20
    rw [hnan] at hs20
    simp at hs20
  · rintro ⟨h61, x, hx, hxne⟩
    have h20 : 20 ≤ (windowObs (retCell cs) 20 i).length := by
      rw [windowObs_ret_length hpos hi]; omega
    have h60 : 60 ≤ (windowObs (retCell cs) 60 i).length := by
      rw [windowObs_ret_length hpos hi]; omega
    have hs20 : (sharpe20At cs i).isNaN = false := by
      rw [sharpe20At, mean20At, vol20At, Bool.eq_false_iff]
      intro hnan
      exact hxne ((sharpe_isNaN_iff (by omega) h20).mp hnan x hx)
    have hs60 : (sharpe60At cs i).isNaN = false := by
      rw [sharpe60At, mean60At, vol60At, Bool.eq_false_iff]
      intro hnan
      exact hxne ((sharpe_isNaN_iff (by omega) h60).mp hnan x (windowObs_mono hx))
    refine ⟨⟨⟨⟨⟨?_, ?_⟩, ?_⟩, ?_⟩, hs20⟩, hs60⟩
    · exact (vol20At_isNaN_iff hpos hi).mpr (by omega)
    · exact (vol60At_isNaN_iff hpos hi).mpr (by omega)
    · exact (sma20At_isNaN_iff hi).mpr (by omega)
    · exact (sma50At_isNaN_iff hi).mpr (by omega)

/-! ## Counting the emitted rows -/

theorem filter_range_eq_range' {n m : ℕ} {p : ℕ → Bool}
    (h : ∀ i, i < n → (p i = true ↔ m ≤ i)) :
    (List.range n).filter p = List.range' m (n - m) := by
  induction n with
  | zero => simp
  | succ k ih =>
    rw [List.range_succ, List.filter_append,
      ih (fun i hi => h i (Nat.lt_succ_of_lt hi))]
    by_cases hk : m ≤ k
    · have hpk : p k = true := (h k (Nat.lt_succ_self k)).mpr hk
      have hsub : k + 1 - m = (k - m) + 1 := by omega
      have hlast : m + 1 * (k - m) = k := by omega
      rw [hsub, List.range'_concat, hlast]
      simp [hpk]
    · have hpk : p k = false := by
        rw [Bool.eq_false_iff]
        intro hc
        exact hk ((h k (Nat.lt_succ_self k)).mp hc)
      have hsub : k + 1 - m = k - m := by omega
      simp [hpk, hsub]

theorem assembleRows_eq {dates : List ℤ} {cs : List ℚ}
    (h : ∀ i, i < cs.length → (rowComplete cs i = true ↔ 61 ≤ i)) :
    assembleRows dates cs = (List.range' 61 (cs.length - 61)).map (metricRowAt dates cs) := by
  unfold assembleRows
  rw [filter_range_eq_range' h]

/-! ## Sorting lemmas -/

theorem sortByDate_perm (l : List PRow) : List.Perm (sortByDate l) l :=
  List.perm_insertionSort _ l

theorem sortByDate_sorted_le (l : List PRow) :
    (sortByDate l).Pairwise (fun a b => a.date ≤ b.date) := by
  haveI : IsTotal PRow (fun a b => a.date ≤ b.date) :=
    ⟨fun a b => Int.le_total a.date b.date⟩
  haveI : IsTrans PRow (fun a b => a.date ≤ b.date) :=
    ⟨fun a b c hab hbc => le_trans hab hbc⟩
  exact List.sorted_insertionSort _ l

theorem sortByDate_sorted_lt {l : List PRow} (h : (l.map PRow.date).Nodup) :
    (sortByDate l).Pairwise (fun a b => a.date < b.date) := by
  have hle := sortByDate_sorted_le l
  have hperm : List.Perm ((sortByDate l).map PRow.date) (l.map PRow.date) := (sortByDate_perm l).map _
  have hnd : ((sortByDate l).map PRow.date).Nodup := hperm.nodup_iff.mpr h
  have hne : (sortByDate l).Pairwise (fun a b => a.date ≠ b.date) := List.pairwise_map.mp hnd
  exact (hle.and hne).imp (fun hab => lt_of_le_of_ne hab.1 hab.2)

theorem eq_of_perm_of_sorted_lt {l₁ l₂ : List PRow} (hp : List.Perm l₁ l₂)
    (h₁ : l₁.Pairwise (fun a b => a.date < b.date))
    (h₂ : l₂.Pairwise (fun a b => a.date < b.date)) : l₁ = l₂ := by
  haveI : IsAntisymm PRow (fun a b => a.date < b.date) :=
    ⟨fun a b hab hba => absurd (hab.trans hba) (lt_irrefl _)⟩
  exact List.eq_of_perm_of_sorted hp h₁ h₂

theorem sortByDate_eq_of_perm {l₁ l₂ : List PRow} (hp : List.Perm l₁ l₂)
    (h : (l₂.map PRow.date).Nodup) : sortByDate l₁ = sortByDate l₂ := by
  have h₁ : (l₁.map PRow.date).Nodup := ((hp.map _).nodup_iff).mpr h
  exact eq_of_perm_of_sorted_lt
    ((sortByDate_perm l₁).trans (hp.trans (sortByDate_perm l₂).symm))
    (sortByDate_sorted_lt h₁) (sortByDate_sorted_lt h)

/-! ## The sorted columns of a well-formed frame -/

theorem closesOf_length (df : PFrame) : (closesOf df).length = df.rows.length := by
  unfold closesOf
  rw [List.length_map, (sortByDate_perm df.rows).length_eq]

theorem datesOf_length (df : PFrame) : (datesOf df).length = df.rows.length := by
  unfold datesOf
  rw [List.length_map, (sortByDate_perm df.rows).length_eq]

theorem closesOf_pos {df : PFrame} (hwf : Wellformed df) : ∀ x ∈ closesOf df, 0 < x := by
  intro x hx
  unfold closesOf at hx
  rw [List.mem_map] at hx
  obtain ⟨r, hr, rfl⟩ := hx
  exact hwf.2.2.2 r ((sortByDate_perm df.rows).mem_iff.mp hr)

theorem datesOf_sorted_lt {df : PFrame} (hwf : Wellformed df) :
    (datesOf df).Pairwise (· < ·) := by
  unfold datesOf
  rw [List.pairwise_map]
  exact sortByDate_sorted_lt hwf.2.2.1

theorem compute_eq_ok {df : PFrame} (hwf : Wellformed df) :
    compute_metrics_for_prices df = .ok (assembleRows (datesOf df) (closesOf df)) := by
  unfold compute_metrics_for_prices
  rw [hwf.1, hwf.2.1]
  rfl

theorem outputOf_wf {df : PFrame} (hwf : Wellformed df) :
    outputOf df = assembleRows (datesOf df) (closesOf df) := by
  unfold outputOf
  rw [compute_eq_ok hwf]
  rfl

/-! ## Congruence: a row's cells depend only on the closes up to its position -/

theorem retCell_congr {cs₁ cs₂ : List ℚ} {i : ℕ}
    (h : ∀ j, j ≤ i → cs₁[j]? = cs₂[j]?) : retCell cs₁ i = retCell cs₂ i := by
  match i with
  | 0 => rfl
  | j + 1 =>
    simp only [retCell]
    rw [h j (by omega), h (j + 1) (le_refl _)]

theorem closeCell_congr {cs₁ cs₂ : List ℚ} {j : ℕ}
    (h : cs₁[j]? = cs₂[j]?) : closeCell cs₁ j = closeCell cs₂ j := by
  unfold closeCell
  rw [h]

theorem windowObs_ret_congr {cs₁ cs₂ : List ℚ} {w i : ℕ}
    (h : ∀ j, j ≤ i → cs₁[j]? = cs₂[j]?) :
    windowObs (retCell cs₁) w i = windowObs (retCell cs₂) w i := by
  unfold windowObs
  apply filterMap_congr_mem
  intro j hj
  rw [mem_windowIdx] at hj
  rw [retCell_congr (fun k hk => h k (by omega))]

theorem windowObs_close_congr {cs₁ cs₂ : List ℚ} {w i : ℕ}
    (h : ∀ j, j ≤ i → cs₁[j]? = cs₂[j]?) :
    windowObs (closeCell cs₁) w i = windowObs (closeCell cs₂) w i := by
  unfold windowObs
  apply filterMap_congr_mem
  intro j hj
  rw [mem_windowIdx] at hj
  rw [closeCell_congr (h j (by omega))]

theorem rollingStd_congr {s₁ s₂ : ℕ → Cell} {w i : ℕ}
    (h : windowObs s₁ w i = windowObs s₂ w i) : rollingStd s₁ w i = rollingStd s₂ w i := by
  unfold rollingStd
  rw [h]

theorem rollingMean_congr {s₁ s₂ : ℕ → Cell} {w i : ℕ}
    (h : windowObs s₁ w i = windowObs s₂ w i) : rollingMean s₁ w i = rollingMean s₂ w i := by
  unfold rollingMean
  rw [h]

theorem metricRowAt_congr {dates₁ dates₂ : List ℤ} {cs₁ cs₂ : List ℚ} {i : ℕ}
    (hdate : dates₁.getD i 0 = dates₂.getD i 0)
    (h : ∀ j, j ≤ i → cs₁[j]? = cs₂[j]?) :
    metricRowAt dates₁ cs₁ i = metricRowAt dates₂ cs₂ i := by
  have hr20 := @windowObs_ret_congr cs₁ cs₂ 20 i h
  have hr60 := @windowObs_ret_congr cs₁ cs₂ 60 i h
  have hc20 := @windowObs_close_congr cs₁ cs₂ 20 i h
  have hc50 := @windowObs_close_congr cs₁ cs₂ 50 i h
  unfold metricRowAt
  rw [hdate, retCell_congr h]
  unfold sharpe20At sharpe60At vol20At vol60At sma20At sma50At mean20At mean60At
  rw [rollingStd_congr hr20, rollingStd_congr hr60,
    rollingMean_congr hc20, rollingMean_congr hc50,
    rollingMean_congr hr20, rollingMean_congr hr60]

theorem rowComplete_congr {cs₁ cs₂ : List ℚ} {i : ℕ}
    (h : ∀ j, j ≤ i → cs₁[j]? = cs₂[j]?) : rowComplete cs₁ i = rowComplete cs₂ i := by
  have hr20 := @windowObs_ret_congr cs₁ cs₂ 20 i h
  have hr60 := @windowObs_ret_congr cs₁ cs₂ 60 i h
  have hc20 := @windowObs_close_congr cs₁ cs₂ 20 i h
  have hc50 := @windowObs_close_congr cs₁ cs₂ 50 i h
  unfold rowComplete
  unfold sharpe20At sharpe60At vol20At vol60At sma20At sma50At mean20At mean60At
  rw [rollingStd_congr hr20, rollingStd_congr hr60,
    rollingMean_congr hc20, rollingMean_congr hc50,
    rollingMean_congr hr20, rollingMean_congr hr60]

/-! ## Miscellaneous cell and window facts -/

theorem isNaN_false_of_toNum_isSome {c : Cell} (h : (c.toNum?).isSome = true) :
    c.isNaN = false := by
  cases c <;> simp_all [Cell.toNum?, Cell.isNaN]

theorem mem_windowObs_ret {cs : List ℚ} {x : ℚ} {w i : ℕ} :
    x ∈ windowObs (retCell cs) w i ↔
      ∃ j, (i - w ≤ j ∧ j < i) ∧ (retCell cs j).toNum? = some x := by
  unfold windowObs
  rw [List.mem_filterMap]
  constructor
  · rintro ⟨j, hj, hx⟩
    exact ⟨j, mem_windowIdx.mp hj, hx⟩
  · rintro ⟨j, hj, hx⟩
    exact ⟨j, mem_windowIdx.mpr hj, hx⟩

/-! ## Constant-price series -/

theorem retCell_const {cs : List ℚ} {c0 : ℚ} (hall : ∀ x ∈ cs, x = c0) (hc : c0 ≠ 0)
    {j : ℕ} (h1 : 1 ≤ j) (hj : j < cs.length) : retCell cs j = .num 0 := by
  obtain ⟨k, rfl⟩ : ∃ k, j = k + 1 := ⟨j - 1, by omega⟩
  have hk : k < cs.length := by omega
  simp only [retCell]
  rw [List.getElem?_eq_getElem hk, List.getElem?_eq_getElem hj]
  have hp : cs[k] = c0 := hall _ (List.getElem_mem hk)
  have hq : cs[k + 1] = c0 := hall _ (List.getElem_mem hj)
  rw [hp, hq]
  simp [hc, div_self hc]

theorem windowObs_ret_const_all_zero {cs : List ℚ} {c0 : ℚ}
    (hall : ∀ x ∈ cs, x = c0) (hc : c0 ≠ 0) {w i : ℕ} (hi : i ≤ cs.length) :
    ∀ x ∈ windowObs (retCell cs) w i, x = 0 := by
  intro x hx
  obtain ⟨j, ⟨-, hji⟩, hx⟩ := mem_windowObs_ret.mp hx
  match j, hx with
  | 0, hx => simp [retCell, Cell.toNum?] at hx
  | k + 1, hx =>
    rw [retCell_const hall hc (by omega) (by omega)] at hx
    simp only [Cell.toNum?, Option.some.injEq] at hx
    exact hx.symm

/-! ## Dates of the sorted frame are monotone -/

theorem datesOf_mono {df : PFrame} (hwf : Wellformed df) {k i : ℕ} (hk : k ≤ i)
    (hi : i < (datesOf df).length) :
    (datesOf df).getD k 0 ≤ (datesOf df).getD i 0 := by
  have hsort := datesOf_sorted_lt hwf
  rcases Nat.eq_or_lt_of_le hk with rfl | hki
  · exact le_refl _
  · have hklen : k < (datesOf df).length := lt_trans hki hi
    have := (List.pairwise_iff_getElem.mp hsort) k i hklen hi hki
    rw [List.getD_eq_getElem?_getD, List.getD_eq_getElem?_getD,
      List.getElem?_eq_getElem hklen, List.getElem?_eq_getElem hi]
    exact le_of_lt this

/-! ## The synthetic linear series -/

theorem linClose_pos (j : ℕ) : (0 : ℚ) < 100 + (j : ℚ) / 2 := by positivity

theorem linFrame_rows_sorted (n : ℕ) :
    ((linFrame n).rows).Pairwise (fun a b => a.date ≤ b.date) := by
  unfold linFrame
  rw [List.pairwise_map]
  exact (List.pairwise_lt_range n).imp (fun hab => Int.ofNat_le.mpr (le_of_lt hab))

theorem sortByDate_linFrame (n : ℕ) : sortByDate (linFrame n).rows = (linFrame n).rows :=
  List.Sorted.insertionSort_eq (linFrame_rows_sorted n)

theorem closesOf_linFrame (n : ℕ) :
    closesOf (linFrame n) = (List.range n).map (fun (i : ℕ) => 100 + (i : ℚ) / 2) := by
  unfold closesOf
  rw [sortByDate_linFrame]
  unfold linFrame
  rw [List.map_map]
  rfl

theorem getElem?_closesOf_linFrame {n j : ℕ} (hj : j < n) :
    (closesOf (linFrame n))[j]? = some (100 + (j : ℚ) / 2) := by
  rw [closesOf_linFrame, List.getElem?_map, List.getElem?_range hj]
  rfl

theorem linFrame_wf (n : ℕ) : Wellformed (linFrame n) := by
  refine ⟨rfl, rfl, ?_, ?_⟩
  · unfold linFrame
    rw [List.map_map]
    exact (List.nodup_range n).map (fun a b hab => Nat.cast_injective hab)
  · intro r hr
    unfold linFrame at hr
    obtain ⟨i, -, rfl⟩ := List.mem_map.mp hr
    exact linClose_pos i

theorem retCell_linFrame {n j : ℕ} (h1 : 1 ≤ j) (hj : j < n) :
    retCell (closesOf (linFrame n)) j = .num (1 / (199 + (j : ℚ))) := by
  obtain ⟨k, rfl⟩ : ∃ k, j = k + 1 := ⟨j - 1, by omega⟩
  simp only [retCell]
  rw [getElem?_closesOf_linFrame (Nat.lt_of_succ_lt hj), getElem?_closesOf_linFrame hj]
  have hp : (100 + (k : ℚ) / 2) ≠ 0 := ne_of_gt (linClose_pos k)
  have h200 : (199 + ((k : ℚ) + 1)) ≠ 0 := by positivity
  simp only [hp, if_false]
  congr 1
  push_cast
  field_simp
  ring

theorem linFrame_window_nonzero (n : ℕ) :
    ∀ i, 61 ≤ i → i < (linFrame n).rows.length →
      ∃ x ∈ windowObs (retCell (closesOf (linFrame n))) 20 i, x ≠ 0 := by
  intro i h61 hi
  have hlen : (linFrame n).rows.length = n := by
    unfold linFrame
    rw [List.length_map, List.length_range]
  have hin : i < n := by omega
  have hj : (retCell (closesOf (linFrame n)) (i - 1)).toNum?
      = some (1 / (199 + ((i - 1 : ℕ) : ℚ))) := by
    rw [retCell_linFrame (by omega) (by omega)]
    rfl
  refine ⟨1 / (199 + ((i - 1 : ℕ) : ℚ)),
    mem_windowObs_ret.mpr ⟨i - 1, ⟨by omega, by omega⟩, hj⟩, ?_⟩
  have hpos : (0 : ℚ) < 1 / (199 + ((i - 1 : ℕ) : ℚ)) := by positivity
  exact ne_of_gt hpos

/-! ## Stripping the extra columns -/

theorem map_strip_eq_of_columns {l₁ l₂ : List PRow}
    (hd : l₁.map PRow.date = l₂.map PRow.date)
    (hc : l₁.map PRow.close = l₂.map PRow.close) :
    l₁.map stripRow = l₂.map stripRow := by
  induction l₁ generalizing l₂ with
  | nil =>
    cases l₂ with
    | nil => rfl
    | cons b u => simp at hd
  | cons a t ih =>
    cases l₂ with
    | nil => simp at hd
    | cons b u =>
      simp only [List.map_cons, List.cons.injEq] at hd hc ⊢
      exact ⟨by unfold stripRow; rw [hd.1, hc.1], ih hd.2 hc.2⟩

theorem map_strip_sortByDate {l : List PRow} (h : (l.map PRow.date).Nodup) :
    (sortByDate l).map stripRow = sortByDate (l.map stripRow) := by
  have hnd' : ((l.map stripRow).map PRow.date).Nodup := by
    rw [List.map_map]
    exact h
  apply eq_of_perm_of_sorted_lt
  · exact ((sortByDate_perm l).map _).trans (sortByDate_perm (l.map stripRow)).symm
  · rw [List.pairwise_map]
    exact sortByDate_sorted_lt h
  · exact sortByDate_sorted_lt hnd'

/-! ## Heap helpers: allocate-then-mutate touches only the fresh cell -/

theorem alloc_get {α : Type} [Inhabited α] (l : List α) (x : α) :
    (l ++ [x]).getD l.length default = x := by
  rw [List.getD_eq_getElem?_getD, List.getElem?_concat_length]
  rfl

theorem alloc_set_get {α : Type} [Inhabited α] (l : List α) (x y : α) :
    ((l ++ [x]).set l.length y).getD l.length default = y := by
  rw [List.getD_eq_getElem?_getD, List.getElem?_set]
  simp

theorem alloc_set_preserves {α : Type} (l : List α) (x y : α) {k : ℕ} (hk : k < l.length) :
    ((l ++ [x]).set l.length y)[k]? = l[k]? := by
  rw [List.getElem?_set_ne (by omega), List.getElem?_append_left hk]

/-! # The claims -/

/-- C1 (corrected): for a well-formed input (pairwise-distinct dates, so `N`
is the row count, and positive closes) such that for every candidate
position `i ≥ 61` of the sorted frame the twenty returns immediately before
`i` are not all zero, the output has exactly `max (0, N - 61)` rows — not
`max (0, N - 60)` as the claim states — and its first row is the 62nd input
observation (sorted position 61) in ascending date order. -/
theorem C1_corrected_length_law (df : PFrame) (hwf : Wellformed df)
    (hnz : ∀ i, 61 ≤ i → i < df.rows.length →
      ∃ x ∈ windowObs (retCell (closesOf df)) 20 i, x ≠ 0) :
    ∃ out, compute_metrics_for_prices df = .ok out ∧
      out.length = df.rows.length - 61 ∧
      out.head?.map MetricRow.date = (datesOf df)[61]? := by
  have hpos := closesOf_pos hwf
  have hall : ∀ i, i < (closesOf df).length →
      (rowComplete (closesOf df) i = true ↔ 61 ≤ i) := by
    intro i hi
    rw [rowComplete_iff hpos (le_of_lt hi)]
    constructor
    · exact fun hh => hh.1
    · intro h61
      refine ⟨h61, hnz i h61 ?_⟩
      rw [← closesOf_length df]
      exact hi
  have hout := @assembleRows_eq (datesOf df) (closesOf df) hall
  refine ⟨_, compute_eq_ok hwf, ?_, ?_⟩
  · rw [hout, List.length_map, List.length_range', closesOf_length]
  · rw [hout, List.head?_map]
    rcases Nat.lt_or_ge (closesOf df).length 62 with hlt | hge
    · have h0 : (closesOf df).length - 61 = 0 := by omega
      rw [h0]
      have hnone : (datesOf df)[61]? = none := by
        apply List.getElem?_eq_none
        rw [datesOf_length, ← closesOf_length]
        omega
      rw [hnone]
      rfl
    · have hsplit : (closesOf df).length - 61 = ((closesOf df).length - 62) + 1 := by omega
      rw [hsplit, List.range'_succ]
      have h61 : 61 < (datesOf df).length := by
        rw [datesOf_length, ← closesOf_length]
        omega
      rw [List.getElem?_eq_getElem h61]
      show some (metricRowAt (datesOf df) (closesOf df) 61).date = _
      unfold metricRowAt
      rw [List.getD_eq_getElem?_getD, List.getElem?_eq_getElem h61]
      rfl

/-- C6 (confirmed): a missing required column (`date` is checked first, then
`close`) makes `compute_metrics_for_prices` fail immediately with the
`InvalidInput` error (`ValueError`) naming that column, and no output — in
particular no partial output — is returned. -/
theorem C6_invalid_input (df : PFrame) :
    (df.hasDate = false →
      compute_metrics_for_prices df = .error (.invalidInput "date")) ∧
    (df.hasDate = true → df.hasClose = false →
      compute_metrics_for_prices df = .error (.invalidInput "close")) ∧
    (df.hasClose = false → ∀ out, compute_metrics_for_prices df ≠ .ok out) := by
  refine ⟨?_, ?_, ?_⟩
  · intro h
    unfold compute_metrics_for_prices
    rw [h]
    rfl
  · intro h1 h2
    unfold compute_metrics_for_prices
    rw [h1, h2]
    rfl
  · intro h2 out hc
    unfold compute_metrics_for_prices at hc
    rw [h2] at hc
    by_cases h1 : df.hasDate
    · rw [h1] at hc
      exact Except.noConfusion hc
    · rw [Bool.not_eq_true] at h1
      rw [h1] at hc
      exact Except.noConfusion hc

/-- C6 witness: a frame whose `close` column is absent. -/
theorem C6_witness :
    compute_metrics_for_prices ⟨true, false, []⟩ = .error (.invalidInput "close") :=
  (C6_invalid_input ⟨true, false, []⟩).2.1 rfl rfl

/-- C7 (confirmed): a well-formed input with fewer than 61 distinct dates
succeeds and returns the empty sequence — it does not raise. -/
theorem C7_undersized_empty (df : PFrame) (hwf : Wellformed df)
    (hlen : df.rows.length < 61) : compute_metrics_for_prices df = .ok [] := by
  rw [compute_eq_ok hwf]
  congr 1
  unfold assembleRows
  have hfil : (List.range (closesOf df).length).filter (rowComplete (closesOf df)) = [] := by
    rw [List.filter_eq_nil_iff]
    intro i hi hcomp
    have hilt := List.mem_range.mp hi
    have h61 := ((rowComplete_iff (closesOf_pos hwf) (le_of_lt hilt)).mp hcomp).1
    rw [closesOf_length] at hilt
    omega
  rw [hfil]
  rfl

/-- C7 witness: a three-observation well-formed series yields `ok []`. -/
theorem C7_witness : compute_metrics_for_prices (linFrame 3) = .ok [] :=
  C7_undersized_empty (linFrame 3) (linFrame_wf 3)
    (of_decide_eq_true (by with_unfolding_all rfl))

/-- C8 (confirmed): the engine first sorts by date, so permuting the rows of
a well-formed input (and keeping the column set) leaves the entire output
unchanged — order-independence after normalization. -/
theorem C8_order_invariance (df df' : PFrame) (hwf : Wellformed df)
    (hperm : List.Perm df'.rows df.rows)
    (hd : df'.hasDate = df.hasDate) (hc : df'.hasClose = df.hasClose) :
    compute_metrics_for_prices df' = compute_metrics_for_prices df := by
  have hsort : sortByDate df'.rows = sortByDate df.rows :=
    sortByDate_eq_of_perm hperm hwf.2.2.1
  unfold compute_metrics_for_prices datesOf closesOf
  rw [hd, hc, hsort]

/-- C8 witness: a concrete three-row frame and a shuffle of it. -/
theorem C8_witness : compute_metrics_for_prices wfB = compute_metrics_for_prices wfA :=
  C8_order_invariance wfA wfB (of_decide_eq_true (by with_unfolding_all rfl))
    (of_decide_eq_true (by with_unfolding_all rfl)) rfl rfl

/-- C4 (confirmed): on a constant positive series with at least 61 distinct
dates, every candidate row at position `i ≥ 61` has
`vol20 = vol60 = √0 = 0` and both sharpe cells `0/0 = NaN`; the `dropna`
policy therefore excludes every row (consistently), so the output is the
empty sequence. -/
theorem C4_flat_series (df : PFrame) (hwf : Wellformed df) (c0 : ℚ)
    (hconst : ∀ r ∈ df.rows, r.close = c0) (hlen : 61 ≤ df.rows.length) :
    compute_metrics_for_prices df = .ok [] ∧
    ∀ i, 61 ≤ i → i ≤ df.rows.length →
      vol20At (closesOf df) i = .sqrtv 0 ∧ vol60At (closesOf df) i = .sqrtv 0 ∧
      sharpe20At (closesOf df) i = .nan ∧ sharpe60At (closesOf df) i = .nan := by
  have hpos := closesOf_pos hwf
  have hallc : ∀ x ∈ closesOf df, x = c0 := by
    intro x hx
    obtain ⟨r, hr, rfl⟩ := List.mem_map.mp hx
    exact hconst r ((sortByDate_perm df.rows).mem_iff.mp hr)
  have hc0 : c0 ≠ 0 := by
    have hne : df.rows ≠ [] := by
      intro hnil
      rw [hnil] at hlen
      simp at hlen
    obtain ⟨r, hr⟩ := List.exists_mem_of_ne_nil df.rows hne
    have := hwf.2.2.2 r hr
    rw [hconst r hr] at this
    exact ne_of_gt this
  constructor
  · rw [compute_eq_ok hwf]
    congr 1
    unfold assembleRows
    have hfil : (List.range (closesOf df).length).filter (rowComplete (closesOf df)) = [] := by
      rw [List.filter_eq_nil_iff]
      intro i hi hcomp
      have hilt := List.mem_range.mp hi
      obtain ⟨-, x, hx, hxne⟩ :=
        (rowComplete_iff hpos (le_of_lt hilt)).mp hcomp
      exact hxne (windowObs_ret_const_all_zero hallc hc0 (le_of_lt hilt) x hx)
    rw [hfil]
    rfl
  · intro i h61 hile
    have hics : i ≤ (closesOf df).length := by
      rw [closesOf_length]
      exact hile
    have h20 : 20 ≤ (windowObs (retCell (closesOf df)) 20 i).length := by
      rw [windowObs_ret_length hpos hics]
      omega
    have h60 : 60 ≤ (windowObs (retCell (closesOf df)) 60 i).length := by
      rw [windowObs_ret_length hpos hics]
      omega
    have hz20 := @windowObs_ret_const_all_zero (closesOf df) c0 hallc hc0 20 i hics
    have hz60 := @windowObs_ret_const_all_zero (closesOf df) c0 hallc hc0 60 i hics
    refine ⟨?_, ?_, ?_, ?_⟩
    · rw [vol20At, rollingStd_eq_of_le h20, sampleVar_of_all_zero hz20]
    · rw [vol60At, rollingStd_eq_of_le h60, sampleVar_of_all_zero hz60]
    · rw [sharpe20At, mean20At, vol20At, rollingStd_eq_of_le h20,
        rollingMean_eq_of_le h20, sampleVar_of_all_zero hz20, listMean_of_all_zero hz20]
      simp [Cell.fdiv]
    · rw [sharpe60At, mean60At, vol60At, rollingStd_eq_of_le h60,
        rollingMean_eq_of_le h60, sampleVar_of_all_zero hz60, listMean_of_all_zero hz60]
      simp [Cell.fdiv]

set_option maxRecDepth 40000 in
/-- C4 witness: the constant series of 61 observations at close `100`. -/
theorem C4_witness :
    compute_metrics_for_prices (constFrame 61) = .ok [] ∧
    ∀ i, 61 ≤ i → i ≤ (constFrame 61).rows.length →
      vol20At (closesOf (constFrame 61)) i = .sqrtv 0 ∧
      vol60At (closesOf (constFrame 61)) i = .sqrtv 0 ∧
      sharpe20At (closesOf (constFrame 61)) i = .nan ∧
      sharpe60At (closesOf (constFrame 61)) i = .nan :=
  C4_flat_series (constFrame 61) (of_decide_eq_true (by with_unfolding_all rfl)) 100
    (of_decide_eq_true (by with_unfolding_all rfl))
    (of_decide_eq_true (by with_unfolding_all rfl))

/-- C2 (corrected): every emitted row has all its cells — the seven numeric
fields included — non-null (`dropna` removes every row with a `NaN` in the
six aggregate columns, and an emitted row's `return` is always defined);
but, contrary to the claim, the cells need not be *finite*: see the
counterexample, where an emitted `sharpe20` is `+∞`. -/
theorem C2_corrected_no_missing (df : PFrame) (hwf : Wellformed df) :
    ∀ r ∈ outputOf df,
      r.ret.isNaN = false ∧ r.vol20.isNaN = false ∧ r.vol60.isNaN = false ∧
      r.sma20.isNaN = false ∧ r.sma50.isNaN = false ∧
      r.sharpe20.isNaN = false ∧ r.sharpe60.isNaN = false := by
  intro r hr
  rw [outputOf_wf hwf] at hr
  unfold assembleRows at hr
  obtain ⟨i, hifil, rfl⟩ := List.mem_map.mp hr
  have hicomp := (List.mem_filter.mp hifil).2
  have hirange := List.mem_range.mp (List.mem_filter.mp hifil).1
  have hpos := closesOf_pos hwf
  obtain ⟨h61, -⟩ := (rowComplete_iff hpos (le_of_lt hirange)).mp hicomp
  unfold rowComplete at hicomp
  simp only [Bool.and_eq_true, Bool.not_eq_true'] at hicomp
  obtain ⟨⟨⟨⟨⟨h1, h2⟩, h3⟩, h4⟩, h5⟩, h6⟩ := hicomp
  refine ⟨?_, h1, h2, h3, h4, h5, h6⟩
  show (retCell (closesOf df) i).isNaN = false
  exact isNaN_false_of_toNum_isSome (retCell_isSome hpos (by omega) hirange)

set_option maxRecDepth 40000 in
/-- C2 counterexample: the geometric 62-observation series (closes `2^i`) is
well-formed, every return is exactly `1`, so the single emitted row has a
zero-variance return window with mean `1` — its `sharpe20` cell is `+∞`,
which is *emitted*, not excluded; the claim that every emitted cell is
finite is false. -/
theorem C2_counterexample :
    Wellformed (geoFrame 62) ∧
    (outputOf (geoFrame 62)).map MetricRow.sharpe20 = [Cell.inf true] ∧
    Cell.isFinite (Cell.inf true) = false := by
  refine ⟨of_decide_eq_true (by with_unfolding_all rfl), by with_unfolding_all rfl, rfl⟩

set_option maxRecDepth 40000 in
/-- C2 witness: the no-`NaN` guarantee instantiated at the single emitted
row of the geometric 62-observation series. -/
theorem C2_witness :
    (geoRow62.ret.isNaN = false ∧ geoRow62.vol20.isNaN = false ∧
     geoRow62.vol60.isNaN = false ∧ geoRow62.sma20.isNaN = false ∧
     geoRow62.sma50.isNaN = false ∧ geoRow62.sharpe20.isNaN = false ∧
     geoRow62.sharpe60.isNaN = false) :=
  C2_corrected_no_missing (geoFrame 62) (of_decide_eq_true (by with_unfolding_all rfl))
    geoRow62
    (by rw [show outputOf (geoFrame 62) = [geoRow62] from by with_unfolding_all rfl]
        exact List.mem_singleton_self _)

set_option maxRecDepth 40000 in
/-- C1 counterexample: the geometric 61-observation series is well-formed
with 61 distinct dates, yet the output is empty: its length `0` differs from
the claimed `max (0, 61 - 60) = 1`. -/
theorem C1_counterexample :
    Wellformed (geoFrame 61) ∧ (geoFrame 61).rows.length = 61 ∧
    compute_metrics_for_prices (geoFrame 61) = .ok [] ∧
    (0 : ℕ) ≠ max 0 (61 - 60) := by
  refine ⟨of_decide_eq_true (by with_unfolding_all rfl), by with_unfolding_all rfl,
    by with_unfolding_all rfl, by decide⟩

set_option maxRecDepth 40000 in
/-- C1 witness: the corrected length law at the geometric 62-observation
series — exactly one row is emitted and it is the 62nd observation. -/
theorem C1_witness :
    ∃ out, compute_metrics_for_prices (geoFrame 62) = .ok out ∧
      out.length = (geoFrame 62).rows.length - 61 ∧
      out.head?.map MetricRow.date = (datesOf (geoFrame 62))[61]? :=
  C1_corrected_length_law (geoFrame 62)
    (of_decide_eq_true (by with_unfolding_all rfl))
    (fun i h61 hlt => by
      have hlen62 : (geoFrame 62).rows.length = 62 := by with_unfolding_all rfl
      have hi : i = 61 := by omega
      subst hi
      exact of_decide_eq_true (by with_unfolding_all rfl))

/-- C5 (corrected): for the 130-point synthetic series
`close[i] = 100 + 0.5·i`, the computed return at position `i ≥ 1` is
`0.5 / (100 + 0.5·(i-1)) = 1 / (199 + i)` — one hundred times the claimed
`0.005 / (100 + 0.5·(i-1))` — the returns are strictly decreasing over
time, and the output has `130 - 61 = 69` rows, not `70`. -/
theorem C5_corrected_synthetic :
    (∀ i : ℕ, 1 ≤ i → i ≤ 129 →
      retCell (closesOf (linFrame 130)) i = .num (1 / (199 + (i : ℚ)))) ∧
    (∀ i j : ℕ, 1 ≤ i → i < j → j ≤ 129 →
      (1 : ℚ) / (199 + (j : ℚ)) < 1 / (199 + (i : ℚ))) ∧
    (outputOf (linFrame 130)).length = 69 := by
  refine ⟨?_, ?_, ?_⟩
  · intro i h1 h2
    exact retCell_linFrame h1 (by omega)
  · intro i j h1 hij hj
    have hcast : (i : ℚ) < (j : ℚ) := by exact_mod_cast hij
    apply one_div_lt_one_div_of_lt
    · positivity
    · linarith
  · rw [outputOf_wf (linFrame_wf 130)]
    have hall : ∀ i, i < (closesOf (linFrame 130)).length →
        (rowComplete (closesOf (linFrame 130)) i = true ↔ 61 ≤ i) := by
      intro i hi
      rw [rowComplete_iff (closesOf_pos (linFrame_wf 130)) (le_of_lt hi)]
      constructor
      · exact fun hh => hh.1
      · intro h61
        refine ⟨h61, linFrame_window_nonzero 130 i h61 ?_⟩
        rw [← closesOf_length (linFrame 130)]
        exact hi
    rw [assembleRows_eq hall, List.length_map, List.length_range',
      closesOf_linFrame, List.length_map, List.length_range]

set_option maxRecDepth 40000 in
/-- C5 counterexample: at position `1` of the synthetic series the computed
return is `100.5/100 - 1 = 1/200 = 0.005`, whereas the claimed formula
`0.005/(100 + 0.5·(i-1))` evaluates to `1/20000` there. -/
theorem C5_counterexample :
    retCell (closesOf (linFrame 130)) 1 = .num (1 / 200) ∧
    ((1 : ℚ) / 200) ≠ (0.005 : ℚ) / (100 + 0.5 * ((1 : ℚ) - 1)) := by
  constructor
  · with_unfolding_all rfl
  · norm_num

/-- C5 witness: the corrected return formula and monotonicity instantiated
at positions `5` and `6`. -/
theorem C5_witness :
    retCell (closesOf (linFrame 130)) 5 = .num (1 / (199 + ((5 : ℕ) : ℚ))) ∧
    (1 : ℚ) / (199 + ((6 : ℕ) : ℚ)) < 1 / (199 + ((5 : ℕ) : ℚ)) :=
  ⟨C5_corrected_synthetic.1 5 (by norm_num) (by norm_num),
   C5_corrected_synthetic.2.1 5 6 (by norm_num) (by norm_num) (by norm_num)⟩

/-- C3 (corrected): the claim fails for perturbations at date `t` itself —
the emitted row's `return` reads the close *at* `t` (see the
counterexample) — but holds for strictly later dates.  Formally: if two
well-formed inputs have the same sorted date column and agree on the closes
at every sorted position whose date is `≤ t`, then the row emitted at date
`t` (when both, either or neither run emits one) is identical in the two
runs: every cell of the row anchored at `t` is computed from closes at dates
`≤ t` only. -/
theorem C3_corrected_no_lookahead (df df' : PFrame) (t : ℤ)
    (hwf : Wellformed df) (hwf' : Wellformed df')
    (hdates : datesOf df' = datesOf df)
    (hclose : ∀ k, k < (closesOf df).length → (datesOf df).getD k 0 ≤ t →
      (closesOf df')[k]? = (closesOf df)[k]?) :
    (outputOf df').filter (fun r => r.date == t) =
      (outputOf df).filter (fun r => r.date == t) := by
  have hrows : df'.rows.length = df.rows.length := by
    have hlen := congrArg List.length hdates
    rwa [datesOf_length, datesOf_length] at hlen
  have hlen' : (closesOf df').length = (closesOf df).length := by
    rw [closesOf_length, closesOf_length, hrows]
  have hagree : ∀ i, i < (closesOf df).length → (datesOf df).getD i 0 ≤ t →
      ∀ j, j ≤ i → (closesOf df')[j]? = (closesOf df)[j]? := by
    intro i hi hit j hji
    refine hclose j (by omega) (le_trans ?_ hit)
    refine datesOf_mono hwf hji ?_
    rw [datesOf_length, ← closesOf_length]
    exact hi
  rw [outputOf_wf hwf, outputOf_wf hwf', hdates]
  unfold assembleRows
  rw [hlen']
  rw [List.filter_map, List.filter_map, List.filter_filter, List.filter_filter]
  have hpred : ∀ i ∈ List.range (closesOf df).length,
      (((fun r => r.date == t) ∘ metricRowAt (datesOf df) (closesOf df')) i &&
        rowComplete (closesOf df') i)
      = (((fun r => r.date == t) ∘ metricRowAt (datesOf df) (closesOf df)) i &&
        rowComplete (closesOf df) i) := by
    intro i hir
    have hi := List.mem_range.mp hir
    by_cases hit : (datesOf df).getD i 0 = t
    · rw [rowComplete_congr (hagree i hi (le_of_eq hit))]
      rfl
    · have h1 : (((fun r => r.date == t) ∘ metricRowAt (datesOf df) (closesOf df')) i)
          = false := by
        show ((datesOf df).getD i 0 == t) = false
        exact beq_eq_false_iff_ne.mpr hit
      have h2 : (((fun r => r.date == t) ∘ metricRowAt (datesOf df) (closesOf df)) i)
          = false := by
        show ((datesOf df).getD i 0 == t) = false
        exact beq_eq_false_iff_ne.mpr hit
      rw [h1, h2, Bool.false_and, Bool.false_and]
  rw [List.filter_congr hpred]
  apply List.map_congr_left
  intro i hi
  have hmem := List.mem_filter.mp hi
  have hirange := List.mem_range.mp hmem.1
  have hdt : ((datesOf df).getD i 0 == t) = true := by
    have hconj := hmem.2
    rw [Bool.and_eq_true] at hconj
    exact hconj.1
  have hit : (datesOf df).getD i 0 ≤ t := le_of_eq (beq_iff_eq.mp hdt)
  exact metricRowAt_congr rfl (hagree i hirange hit)

set_option maxRecDepth 40000 in
/-- C3 counterexample: the two inputs below differ only in the close of the
observation at date `61`; the row emitted at `t = 61` — a perturbation site
with date `≥ t` — changes: its `return` is `1` for the geometric series and
`1/2` for the perturbed one.  Invariance under mutation at dates `≥ t`
(rather than `> t`) is false. -/
theorem C3_counterexample :
    (geoPert 62 (3 * 2 ^ 59)).rows.map PRow.date = (geoFrame 62).rows.map PRow.date ∧
    ((geoPert 62 (3 * 2 ^ 59)).rows.take 61).map PRow.close
      = ((geoFrame 62).rows.take 61).map PRow.close ∧
    (outputOf (geoFrame 62)).map (fun r => (r.date, r.ret)) = [((61 : ℤ), Cell.num 1)] ∧
    (outputOf (geoPert 62 (3 * 2 ^ 59))).map (fun r => (r.date, r.ret))
      = [((61 : ℤ), Cell.num (1 / 2))] := by
  refine ⟨by with_unfolding_all rfl, by with_unfolding_all rfl,
    by with_unfolding_all rfl, by with_unfolding_all rfl⟩

set_option maxRecDepth 40000 in
/-- C3 witness: perturbing only the close at date `62` (strictly after
`t = 61`) of the geometric 63-observation series leaves the row emitted at
date `61` unchanged. -/
theorem C3_witness :
    (outputOf (geoPert 63 1)).filter (fun r => r.date == 61) =
      (outputOf (geoFrame 63)).filter (fun r => r.date == 61) := by
  have htake : (closesOf (geoPert 63 1)).take 62 = (closesOf (geoFrame 63)).take 62 := by
    with_unfolding_all rfl
  have hdats : datesOf (geoFrame 63) = (List.range 63).map (fun (i : ℕ) => (i : ℤ)) := by
    with_unfolding_all rfl
  refine C3_corrected_no_lookahead (geoFrame 63) (geoPert 63 1) 61
    (of_decide_eq_true (by with_unfolding_all rfl))
    (of_decide_eq_true (by with_unfolding_all rfl))
    (by with_unfolding_all rfl) ?_
  intro k hk hkt
  have hlen : (closesOf (geoFrame 63)).length = 63 := by with_unfolding_all rfl
  have hk62 : k < 62 := by
    by_contra hge
    have hkeq : k = 62 := by omega
    subst hkeq
    rw [hdats, List.getD_eq_getElem?_getD, List.getElem?_map,
      List.getElem?_range (by omega)] at hkt
    simp at hkt
  calc (closesOf (geoPert 63 1))[k]?
      = ((closesOf (geoPert 63 1)).take 62)[k]? := (List.getElem?_take_of_lt hk62).symm
    _ = ((closesOf (geoFrame 63)).take 62)[k]? := by rw [htake]
    _ = (closesOf (geoFrame 63))[k]? := List.getElem?_take_of_lt hk62

/-- C9 (confirmed): in the heap model of one invocation, the caller's
DataFrame object is untouched (`df.copy()` runs before any write and every
write lands on one of the two local objects the call allocates), the heap
grows only by those locals, and the callee's final local state is a pure
function of the caller's object — the engine only reads its input and keeps
no state between invocations. -/
theorem C9_no_mutation (h : Heap) (a : ℕ) (ha : a < h.length) :
    ((engineRun h a).1)[a]? = h[a]? ∧
    (engineRun h a).1.length = h.length + 2 ∧
    (engineRun h a).1.getD (engineRun h a).2 default =
      ⟨ensure_datetime_and_sort (h.getD a default).frame,
        some (returnColumn (ensure_datetime_and_sort (h.getD a default).frame))⟩ := by
  simp only [engineRun]
  refine ⟨?_, ?_, ?_⟩
  · rw [alloc_set_preserves _ _ _ (by simp; omega), alloc_set_preserves _ _ _ ha]
  · simp
  · rw [alloc_set_get, alloc_get, alloc_set_get, alloc_get]
    rfl

/-- C9 witness at a one-object heap. -/
theorem C9_witness :
    ((engineRun [({ frame := ⟨true, true, []⟩, retCol := none } : DFObj)] 0).1)[0]?
      = [({ frame := ⟨true, true, []⟩, retCol := none } : DFObj)][0]? ∧
    (engineRun [({ frame := ⟨true, true, []⟩, retCol := none } : DFObj)] 0).1.length = 3 ∧
    (engineRun [({ frame := ⟨true, true, []⟩, retCol := none } : DFObj)] 0).1.getD
        (engineRun [({ frame := ⟨true, true, []⟩, retCol := none } : DFObj)] 0).2 default =
      ⟨ensure_datetime_and_sort
          (([({ frame := ⟨true, true, []⟩, retCol := none } : DFObj)].getD 0 default).frame),
        some (returnColumn (ensure_datetime_and_sort
          (([({ frame := ⟨true, true, []⟩, retCol := none } : DFObj)].getD 0 default).frame)))⟩ :=
  C9_no_mutation [({ frame := ⟨true, true, []⟩, retCol := none } : DFObj)] 0 (by norm_num)

/-- C10 (confirmed): the engine reads only the `date` and `close` columns;
two well-formed inputs with identical date and close columns (and the same
required-column flags) but arbitrary additional columns produce identical
outputs. -/
theorem C10_extra_columns_irrelevant (df df' : PFrame) (hwf : Wellformed df)
    (hd : df'.hasDate = df.hasDate) (hc : df'.hasClose = df.hasClose)
    (hdcol : df'.rows.map PRow.date = df.rows.map PRow.date)
    (hccol : df'.rows.map PRow.close = df.rows.map PRow.close) :
    compute_metrics_for_prices df' = compute_metrics_for_prices df := by
  have hnd : (df.rows.map PRow.date).Nodup := hwf.2.2.1
  have hnd' : (df'.rows.map PRow.date).Nodup := by
    rw [hdcol]
    exact hnd
  have hstrip : df'.rows.map stripRow = df.rows.map stripRow :=
    map_strip_eq_of_columns hdcol hccol
  have hsorted : (sortByDate df'.rows).map stripRow = (sortByDate df.rows).map stripRow := by
    rw [map_strip_sortByDate hnd', map_strip_sortByDate hnd, hstrip]
  have hfd : PRow.date ∘ stripRow = PRow.date := rfl
  have hfc : PRow.close ∘ stripRow = PRow.close := rfl
  have hdatesEq : datesOf df' = datesOf df := by
    unfold datesOf
    have h1 := congrArg (List.map PRow.date) hsorted
    rwa [List.map_map, List.map_map, hfd] at h1
  have hclosesEq : closesOf df' = closesOf df := by
    unfold closesOf
    have h1 := congrArg (List.map PRow.close) hsorted
    rwa [List.map_map, List.map_map, hfc] at h1
  unfold compute_metrics_for_prices
  rw [hd, hc, hdatesEq, hclosesEq]

/-- C10 witness: two frames sharing dates and closes, with different extra
columns. -/
theorem C10_witness :
    compute_metrics_for_prices exFrameB = compute_metrics_for_prices exFrameA :=
  C10_extra_columns_irrelevant exFrameA exFrameB
    (of_decide_eq_true (by with_unfolding_all rfl)) rfl rfl
    (by with_unfolding_all rfl) (by with_unfolding_all rfl)

end FinSight
